import Mathlib

/-!
# Verification of the `find_dupes` duplicate-file finder

Shallow embedding of the repository's Rust sources:

* `src/group_by_inode.rs` — the directory walker (`GroupByInodeIter`,
  `is_wanted_dir`, `is_wanted_file`, `push_child`, `read_dir_optimistically`).
* `src/group_by_content.rs` — the content clusterer (`GroupByContentIter`,
  `regroup`, `compare_file_bytes`).
* `src/main.rs` — the size-spec parser (`parse_file_size_spec`).

Filesystem contents are modelled as `String → Option (List Nat)` (a path maps
to its byte content, or to `none` when opening/reading the file fails).
Rust `Vec` work queues use `push`/`pop` at the *end*; we represent each such
vector as a Lean list in stack order (Lean head = Rust last element), so Rust
`push` is `cons` and Rust `pop` takes the head.
-/

/-- `DedupFile` from `src/group_by_inode.rs` (field names as in the source).
The path type is a parameter; the content pipeline instantiates it with
`String`, the walker model is stated for an arbitrary path type. -/
structure DedupFile (P : Type) where
  paths : List P
  size : Nat
  device : Nat
  inode : Nat
  nlink : Nat
deriving DecidableEq

/-- A model filesystem for the content stage: each path either has byte
content (`some bytes`) or fails to open/read (`none`). -/
abbrev FsModel := String → Option (List Nat)

/-- `BUFFER_LEN` from `src/group_by_content.rs`: 1 MiB. -/
def BUFFER_LEN : Nat := 1024 * 1024

/-- The read/compare loop of `compare_file_bytes` (`src/group_by_content.rs`
lines 81–92).  `c1`, `c2` are the unread remainders of the two files and
`buf1`, `buf2` the current buffer contents (the Rust buffers are
`[0; BUFFER_LEN]` arrays; a read overwrites only the first `read_count`
bytes, so stale bytes persist — the Rust code compares the *whole* buffers
with `buf1 != buf2`, which we reproduce).  A read returns
`min BUFFER_LEN remaining` bytes. -/
def cmpChunks (c1 c2 buf1 buf2 : List Nat) : Bool :=
  if min BUFFER_LEN c1.length ≠ min BUFFER_LEN c2.length ∨
      c1.take BUFFER_LEN ++ buf1.drop (min BUFFER_LEN c1.length) ≠
        c2.take BUFFER_LEN ++ buf2.drop (min BUFFER_LEN c2.length) then
    false
  else if h : min BUFFER_LEN c1.length ≠ BUFFER_LEN then
    true
  else
    cmpChunks (c1.drop BUFFER_LEN) (c2.drop BUFFER_LEN)
      (c1.take BUFFER_LEN ++ buf1.drop (min BUFFER_LEN c1.length))
      (c2.take BUFFER_LEN ++ buf2.drop (min BUFFER_LEN c2.length))
termination_by c1.length
decreasing_by
  simp at h
  have hpos : 0 < BUFFER_LEN := by decide
  simp [List.length_drop]
  omega

/-- `compare_file_bytes` from `src/group_by_content.rs` lines 75–95: open both
files (an unreadable file yields `none`, modelling the `?` on `File::open` /
`read`), then run the chunked comparison loop starting from two zeroed
buffers. -/
def compare_file_bytes (fs : FsModel) (path1 path2 : String) : Option Bool :=
  match fs path1, fs path2 with
  | some c1, some c2 =>
      some (cmpChunks c1 c2 (List.replicate BUFFER_LEN 0) (List.replicate BUFFER_LEN 0))
  | _, _ => none

/-- `candidate.paths[0]` — the representative path used for comparisons. -/
def path0 (d : DedupFile String) : String := d.paths.headD ""

/-- `group[0]` — the representative (first) member of a provisional group. -/
def headF (g : List (DedupFile String)) : DedupFile String :=
  g.headD ⟨[], 0, 0, 0, 0⟩

/-- The inner `for group in &mut groups` loop of `regroup`
(`src/group_by_content.rs` lines 61–67): try each provisional group in order;
on the first comparison that returns `Ok(true)` append the candidate to that
group, otherwise start a new one-element group at the end.  Note that an
`Err` result is treated exactly like `Ok(false)` by the `if let Ok(true)`
pattern. -/
def insertCand (fs : FsModel) (c : DedupFile String) :
    List (List (DedupFile String)) → List (List (DedupFile String))
  | [] => [[c]]
  | g :: gs =>
      if compare_file_bytes fs (path0 c) (path0 (headF g)) = some true then
        (g ++ [c]) :: gs
      else
        g :: insertCand fs c gs

/-- The outer `while let Some(candidate) = candidates.pop()` loop of
`regroup`.  The candidate list is given in pop order (head = next pop). -/
def regroupLoop (fs : FsModel) :
    List (DedupFile String) → List (List (DedupFile String)) → List (List (DedupFile String))
  | [], gs => gs
  | c :: cs, gs => regroupLoop fs cs (insertCand fs c gs)

/-- `regroup` from `src/group_by_content.rs` lines 47–72: pop candidates from
the end of the vector, cluster them, then `retain(|g| g.len() > 1)`. -/
def regroup (fs : FsModel) (candidates : List (DedupFile String)) :
    List (List (DedupFile String)) :=
  (regroupLoop fs candidates.reverse []).filter (fun g => 1 < g.length)

/-- Draining `GroupByContentIter` (`src/group_by_content.rs` lines 30–44):
repeatedly call `next()` until it returns `None` and collect the yielded
groups.  Both queues are in stack order (head = Rust `Vec` end, the element
`pop` takes); `output_queue.append(&mut regroup g)` therefore prepends the
*reversed* `regroup` result.  Empty output groups are skipped without being
yielded. -/
def drainRev (fs : FsModel) :
    List (List (DedupFile String)) → List (List (DedupFile String)) → List (List (DedupFile String))
  | inq, g :: outq =>
      if g.isEmpty then drainRev fs inq outq else g :: drainRev fs inq outq
  | [], [] => []
  | gi :: inq, [] => drainRev fs inq ((regroup fs gi).reverse)
termination_by inq outq => (inq.length, outq.length)

/-- `group_by_content` from `src/group_by_content.rs` lines 97–102, composed
with a full drain of the iterator: the input groups arrive in `Vec` order, so
the initial `input_queue` in stack order is their reverse, and the
`output_queue` starts empty. -/
def group_by_content (fs : FsModel) (groups_by_size : List (List (DedupFile String))) :
    List (List (DedupFile String)) :=
  drainRev fs groups_by_size.reverse []

/-! ## The directory walker (`src/group_by_inode.rs`) -/

/-- File-type triage of `std::fs::Metadata`: directory, regular file, or
anything else (symlink, socket, pipe, device node); the kinds are mutually
exclusive. -/
inductive FType
  | dir
  | file
  | other
deriving DecidableEq

/-- The slice of `Metadata` the walker reads: `is_dir`/`is_file` (via
`ftype`), `len()`, `dev()`, `ino()`, `nlink()`. -/
structure FMeta where
  ftype : FType
  size : Nat
  dev : Nat
  ino : Nat
  nlink : Nat
deriving DecidableEq

/-- A model filesystem for the walker: per-path metadata (`none` when
`DirEntry::metadata()` fails) and directory listing (`none` when
`fs::read_dir` fails).  Entries whose `DirEntry` itself errors are omitted
from the listing, mirroring `filter_map(|d| d.ok())`. -/
structure WalkFS (P : Type) where
  meta : P → Option FMeta
  readDir : P → Option (List P)

/-- State of `GroupByInodeIter` (`src/group_by_inode.rs` lines 18–23); both
queues in stack order (head = Rust `Vec` end, the element `pop` takes). -/
structure WalkState (P : Type) where
  min_size : Nat
  file_queue : List (DedupFile P)
  dir_queue : List P
  seen_dirs : List (Nat × Nat)
deriving DecidableEq

variable {P : Type}

/-- `is_wanted_dir` (`src/group_by_inode.rs` lines 27–29): a directory whose
`(dev, ino)` pair is not in `seen_dirs`.  Nothing in the source ever inserts
into `seen_dirs`, so in every reachable state the second conjunct is
vacuously true. -/
def is_wanted_dir (s : WalkState P) (m : FMeta) : Bool :=
  (m.ftype == FType.dir) && !(s.seen_dirs.contains (m.dev, m.ino))

/-- `is_wanted_file` (lines 32–34): a regular file at least `min_size`
bytes long. -/
def is_wanted_file (s : WalkState P) (m : FMeta) : Bool :=
  (m.ftype == FType.file) && decide (s.min_size ≤ m.size)

/-- `push_child` (lines 37–49). -/
def push_child (s : WalkState P) (path : P) (m : FMeta) : WalkState P :=
  if is_wanted_dir s m then
    { s with dir_queue := path :: s.dir_queue }
  else if is_wanted_file s m then
    { s with file_queue :=
        ⟨[path], m.size, m.dev, m.ino, m.nlink⟩ :: s.file_queue }
  else
    s

/-- `read_dir_optimistically` (lines 52–57): a listing failure yields no
children. -/
def read_dir_optimistically (fs : WalkFS P) (path : P) : List P :=
  (fs.readDir path).getD []

/-- The `for child_entry in …` loop of `next` (lines 75–81): push each
child whose metadata is readable; skip the others silently. -/
def expandChildren (fs : WalkFS P) (s : WalkState P) : List P → WalkState P
  | [] => s
  | c :: cs =>
      match fs.meta c with
      | some m => expandChildren fs (push_child s c m) cs
      | none => expandChildren fs s cs

/-- Result of one iteration of the `while` loop in `GroupByInodeIter::next`
(lines 63–88): yield a file, continue looping with a new state, or finish. -/
inductive StepRes (P : Type)
  | yield (f : DedupFile P) (s : WalkState P)
  | cont (s : WalkState P)
  | done
deriving DecidableEq

/-- One iteration of the loop body of `next`: when both queues are empty the
iterator is done; otherwise a queued file, if any, is popped and yielded
before any directory is touched; otherwise one pending directory is popped
and its children pushed. -/
def walkStep (fs : WalkFS P) (s : WalkState P) : StepRes P :=
  match s.file_queue, s.dir_queue with
  | [], [] => StepRes.done
  | f :: fq, _ => StepRes.yield f { s with file_queue := fq }
  | [], d :: dq =>
      StepRes.cont (expandChildren fs { s with dir_queue := dq }
        (read_dir_optimistically fs d))

/-- Run the iterator for at most `fuel` loop iterations, collecting the
yielded files in order; the boolean records whether the iterator finished
(returned `None`) within the fuel. -/
def walkRun (fs : WalkFS P) : Nat → WalkState P → List (DedupFile P) × Bool
  | 0, _ => ([], false)
  | fuel + 1, s =>
      match walkStep fs s with
      | StepRes.done => ([], true)
      | StepRes.yield f s' =>
          let r := walkRun fs fuel s'
          (f :: r.1, r.2)
      | StepRes.cont s' => walkRun fs fuel s'

/-- `group_by_inode` (lines 93–101): the initial iterator state (the model
treats the root path as already canonical). -/
def group_by_inode (root : P) (min_size : Nat) : WalkState P :=
  ⟨min_size, [], [root], []⟩

/-- Cyclic hierarchy for C3: every path resolves to the same physical
directory (device 7, inode 7) — a bind-mount loop — and listing path `n`
shows the single child `n + 1` (path strings grow while the physical
directory repeats). -/
def cycFS : WalkFS Nat :=
  ⟨fun _ => some ⟨FType.dir, 0, 7, 7, 1⟩, fun n => some [n + 1]⟩

/-- Walker state after `k` expansions of the cyclic hierarchy. -/
def cycState (k : Nat) : WalkState Nat := ⟨0, [], [k], []⟩

/-- Hierarchy for C7: root 0 has subdirectories 1 and 2 (depth 1);
directory 1 holds regular file 4 (depth 2); directory 2 holds
subdirectory 3 (depth 2), which holds regular file 5 (depth 3). -/
def bfsFS : WalkFS Nat where
  meta n :=
    if n ≤ 3 then some ⟨FType.dir, 0, 1, n, 1⟩
    else if n ≤ 5 then some ⟨FType.file, 1, 1, n, 1⟩
    else none
  readDir n :=
    if n = 0 then some [1, 2]
    else if n = 1 then some [4]
    else if n = 2 then some [3]
    else if n = 3 then some [5]
    else some []

/-! ## The size-spec parser (`src/main.rs` lines 77–100) -/

/-- Per-character ASCII lowercasing, as done by `make_ascii_lowercase`. -/
def toLowerAscii (c : Char) : Char :=
  if 'A' ≤ c ∧ c ≤ 'Z' then Char.ofNat (c.toNat + 32) else c

/-- `char::is_ascii_alphabetic`. -/
def isAsciiAlpha (c : Char) : Bool :=
  ('a' ≤ c && c ≤ 'z') || ('A' ≤ c && c ≤ 'Z')

/-- `char::is_ascii_digit`. -/
def isAsciiDigit (c : Char) : Bool := '0' ≤ c && c ≤ '9'

/-- `u64::from_str` (the `num_str.parse::<u64>()` call): an optional leading
`+`, then one or more ASCII digits, with the value below `2 ^ 64`; anything
else fails. -/
def parseU64 (cs : List Char) : Option Nat :=
  let ds := match cs with
    | '+' :: rest => rest
    | _ => cs
  if ds.isEmpty then none
  else if ds.all isAsciiDigit then
    let n := ds.foldl (fun acc c => acc * 10 + (c.toNat - ('0').toNat)) 0
    if n < 2 ^ 64 then some n else none
  else none

/-- The `match suffix` multiplier table of `parse_file_size_spec`
(`src/main.rs` lines 84–95), applied to the already-lowercased suffix. -/
def multiplierOf (suffix : List Char) : Option Nat :=
  if suffix = [] then some 1
  else if suffix = ['k'] ∨ suffix = ['k', 'b'] then some 1000
  else if suffix = ['m'] ∨ suffix = ['m', 'b'] then some 1000000
  else if suffix = ['g'] ∨ suffix = ['g', 'b'] then some 1000000000
  else if suffix = ['t'] ∨ suffix = ['t', 'b'] then some 1000000000000
  else if suffix = ['k', 'i'] ∨ suffix = ['k', 'i', 'b'] then some 1024
  else if suffix = ['m', 'i'] ∨ suffix = ['m', 'i', 'b'] then some (1024 * 1024)
  else if suffix = ['g', 'i'] ∨ suffix = ['g', 'i', 'b'] then some (1024 * 1024 * 1024)
  else if suffix = ['t', 'i'] ∨ suffix = ['t', 'i', 'b'] then
    some (1024 * 1024 * 1024 * 1024)
  else none

/-- `parse_file_size_spec` (`src/main.rs` lines 77–100): lowercase the
input, split it at the first ASCII-alphabetic character (`find` +
`split_at`), look up the multiplier (bailing with a "bad multiplier" message
quoting the input), parse the magnitude as `u64` (failing with a
"bad number" message quoting the input), and return `num * multiplier` with
release-mode `u64` wrap-around semantics, i.e. reduced modulo `2 ^ 64`.
(`{:?}` formatting is modelled as plain quoting.) -/
def parse_file_size_spec (s : String) : Except String Nat :=
  let t := s.data.map toLowerAscii
  let num := t.takeWhile (fun c => !isAsciiAlpha c)
  let suffix := t.dropWhile (fun c => !isAsciiAlpha c)
  match multiplierOf suffix with
  | none =>
      Except.error ("Failed to parse file size (bad multiplier -- got \"" ++ s ++ "\")")
  | some multiplier =>
      match parseU64 num with
      | some num => Except.ok ((num * multiplier) % 2 ^ 64)
      | none =>
          Except.error ("Failed to parse file size (bad number -- got \"" ++ s ++ "\")")

/-- SI prefix exponent, following the spec's wording: k/m/g/t are the 1st
to 4th powers of the base. -/
def siPower (c : Char) : Option Nat :=
  if c = 'k' then some 1
  else if c = 'm' then some 2
  else if c = 'g' then some 3
  else if c = 't' then some 4
  else none

/-- The multiplier table as the *spec* words it ("SI multipliers are powers
of 1000 for k/m/g/t, IEC multipliers are powers of 1024 for ki/mi/gi/ti",
each optionally followed by `b`); C6 compares the code's table against this
one. -/
def specMultiplier : List Char → Option Nat
  | [] => some 1
  | c :: rest =>
      match siPower c with
      | none => none
      | some p =>
          if rest = [] ∨ rest = ['b'] then some (1000 ^ p)
          else if rest = ['i'] ∨ rest = ['i', 'b'] then some (1024 ^ p)
          else none

/-- Whole-string ASCII lowercasing (`make_ascii_lowercase`). -/
def lowerStr (s : String) : String := ⟨s.data.map toLowerAscii⟩

/-! ## The Inode Consolidator (spec-modelled)

`DedupFile.paths` is a `Vec<PathBuf>` and `src/group_by_content.rs` assumes
its candidates contain "no duplicates (by inode)", which presupposes a
consolidation stage between the walker and the size buckets; but no such
code is under `src/` (the crate root that wires the stages together is not
among the given sources), so the stage is modelled from the spec (§4.2). -/

/-- Composite identity of a record: its `(device, inode)` pair. -/
def keyOf (r : DedupFile P) : Nat × Nat := (r.device, r.inode)

/-- Modelled from the spec: one consolidation step of the Inode
Consolidator, which is missing from `src/`.  Per the spec's contract the
consolidator keeps, for each distinct `(device, inode)` pair, exactly one
record whose `paths` collects every observed path in discovery order, with
`size`/`nlink` taken from the most recent observation (last write wins). -/
def upsertRecord (acc : List (DedupFile P)) (r : DedupFile P) : List (DedupFile P) :=
  if acc.any (fun a => decide (keyOf a = keyOf r)) then
    acc.map (fun a =>
      if keyOf a = keyOf r then
        { a with paths := a.paths ++ r.paths, size := r.size, nlink := r.nlink }
      else a)
  else
    acc ++ [r]

/-- Modelled from the spec: the Inode Consolidator applied to the walker's
whole record stream, in discovery order. -/
def consolidate (recs : List (DedupFile P)) : List (DedupFile P) :=
  recs.foldl upsertRecord []

/-! ## Correctness of the chunked byte comparison

Starting from equal buffers (the Rust buffers are both zero-initialised), the
chunk loop returns `true` exactly on equal contents: the whole-buffer
comparison `buf1 != buf2` is sound because the bytes beyond the current read
count are stale bytes from previous (already equal) chunks. -/

theorem cmpChunks_eq_decide (c1 c2 buf1 buf2 : List Nat) :
    buf1 = buf2 → cmpChunks c1 c2 buf1 buf2 = decide (c1 = c2) := by
  induction c1, c2, buf1, buf2 using cmpChunks.induct with
  | case1 c1 c2 buf1 buf2 hcond =>
    intro hb
    rw [cmpChunks, if_pos hcond]
    subst hb
    have hne : c1 ≠ c2 := by
      intro hEq
      subst hEq
      rcases hcond with hk | hbuf
      · exact hk rfl
      · exact hbuf rfl
    rw [decide_eq_false hne]
  | case2 c1 c2 buf1 buf2 hcond hk =>
    intro hb
    rw [cmpChunks, if_neg hcond, dif_pos hk]
    push_neg at hcond
    obtain ⟨hkEq, hbufEq⟩ := hcond
    subst hb
    have hlen1 : c1.length < BUFFER_LEN := by
      rcases Nat.le_total BUFFER_LEN c1.length with h | h
      · exact absurd (Nat.min_eq_left h) hk
      · rcases Nat.lt_or_ge c1.length BUFFER_LEN with h' | h'
        · exact h'
        · exact absurd (Nat.min_eq_left h') hk
    have hmin1 : BUFFER_LEN ⊓ c1.length = c1.length :=
      Nat.min_eq_right (Nat.le_of_lt hlen1)
    have hlen2 : c2.length < BUFFER_LEN := by
      rcases Nat.lt_or_ge c2.length BUFFER_LEN with h' | h'
      · exact h'
      · rw [Nat.min_eq_left h'] at hkEq
        exact absurd hkEq hk
    have hmin2 : BUFFER_LEN ⊓ c2.length = c2.length :=
      Nat.min_eq_right (Nat.le_of_lt hlen2)
    rw [hkEq] at hbufEq
    have htake : c1.take BUFFER_LEN = c2.take BUFFER_LEN :=
      List.append_cancel_right hbufEq
    rw [List.take_of_length_le (Nat.le_of_lt hlen1),
        List.take_of_length_le (Nat.le_of_lt hlen2)] at htake
    exact (decide_eq_true htake).symm
  | case3 c1 c2 buf1 buf2 hcond hk ih =>
    intro hb
    rw [cmpChunks, if_neg hcond, dif_neg hk]
    push_neg at hcond
    obtain ⟨hkEq, hbufEq⟩ := hcond
    subst hb
    rw [ih hbufEq]
    apply decide_eq_decide.mpr
    have htake : c1.take BUFFER_LEN = c2.take BUFFER_LEN := by
      rw [hkEq] at hbufEq
      exact List.append_cancel_right hbufEq
    constructor
    · intro h
      calc c1 = c1.take BUFFER_LEN ++ c1.drop BUFFER_LEN := (List.take_append_drop _ _).symm
        _ = c2.take BUFFER_LEN ++ c2.drop BUFFER_LEN := by rw [htake, h]
        _ = c2 := List.take_append_drop _ _
    · intro h; rw [h]

/-- `compare_file_bytes` on two readable files decides byte-for-byte
equality of their contents. -/
theorem compare_file_bytes_some (fs : FsModel) (c1 c2 : List Nat) (p1 p2 : String)
    (h1 : fs p1 = some c1) (h2 : fs p2 = some c2) :
    compare_file_bytes fs p1 p2 = some (decide (c1 = c2)) := by
  unfold compare_file_bytes
  rw [h1, h2]
  exact congrArg some (cmpChunks_eq_decide _ _ _ _ rfl)

/-- A comparison whose first file cannot be opened fails (returns `none`). -/
theorem compare_file_bytes_none_left (fs : FsModel) (p1 p2 : String)
    (h : fs p1 = none) : compare_file_bytes fs p1 p2 = none := by
  unfold compare_file_bytes
  rw [h]

/-- A comparison whose second file cannot be opened fails (returns `none`). -/
theorem compare_file_bytes_none_right (fs : FsModel) (p1 p2 : String)
    (h : fs p2 = none) : compare_file_bytes fs p1 p2 = none := by
  unfold compare_file_bytes
  rw [h]
  cases fs p1 <;> rfl

/-- Byte content of a record's representative file (`paths[0]`). -/
def contOf (fs : FsModel) (d : DedupFile String) : Option (List Nat) := fs (path0 d)

lemma compare_true_iff (fs : FsModel) (p q : String)
    (hp : (fs p).isSome) (hq : (fs q).isSome) :
    compare_file_bytes fs p q = some true ↔ fs p = fs q := by
  obtain ⟨cp, hcp⟩ := Option.isSome_iff_exists.mp hp
  obtain ⟨cq, hcq⟩ := Option.isSome_iff_exists.mp hq
  rw [compare_file_bytes_some fs cp cq p q hcp hcq, hcp, hcq]
  simp

lemma headF_cons (a : DedupFile String) (t : List (DedupFile String)) :
    headF (a :: t) = a := rfl

lemma headF_mem {g : List (DedupFile String)} (h : g ≠ []) : headF g ∈ g := by
  cases g with
  | nil => exact absurd rfl h
  | cons a t => exact List.mem_cons_self _ _

lemma headF_append {g : List (DedupFile String)} (l : List (DedupFile String))
    (h : g ≠ []) : headF (g ++ l) = headF g := by
  cases g with
  | nil => exact absurd rfl h
  | cons a t => rfl

/-! ## The clustering loop: membership, links and content classes -/

lemma insertCand_flatten_perm (fs : FsModel) (c : DedupFile String) :
    ∀ gs : List (List (DedupFile String)),
      (insertCand fs c gs).flatten.Perm (c :: gs.flatten)
  | [] => by simp [insertCand]
  | g :: gs => by
    rw [insertCand]
    by_cases hcmp : compare_file_bytes fs (path0 c) (path0 (headF g)) = some true
    · rw [if_pos hcmp]
      simp only [List.flatten_cons, List.append_assoc, List.singleton_append]
      exact List.perm_middle
    · rw [if_neg hcmp]
      simp only [List.flatten_cons]
      exact (List.Perm.append_left g (insertCand_flatten_perm fs c gs)).trans
        List.perm_middle

lemma regroupLoop_flatten_perm (fs : FsModel) :
    ∀ (cs : List (DedupFile String)) (gs : List (List (DedupFile String))),
      (regroupLoop fs cs gs).flatten.Perm (cs ++ gs.flatten)
  | [], gs => by simp [regroupLoop]
  | c :: cs, gs => by
    rw [regroupLoop]
    exact ((regroupLoop_flatten_perm fs cs _).trans
      (List.Perm.append_left cs (insertCand_flatten_perm fs c gs))).trans
      List.perm_middle

/-- Every provisional cluster is nonempty, and every member after the seed
(first member) was appended only after a comparison against the seed
returned `Ok(true)`. -/
def LinkOK (fs : FsModel) (gs : List (List (DedupFile String))) : Prop :=
  ∀ g ∈ gs, ∃ a t, g = a :: t ∧
    ∀ j ∈ t, compare_file_bytes fs (path0 j) (path0 a) = some true

lemma insertCand_LinkOK (fs : FsModel) (c : DedupFile String) :
    ∀ gs, LinkOK fs gs → LinkOK fs (insertCand fs c gs)
  | [], _ => by
    intro g hg
    simp only [insertCand, List.mem_singleton] at hg
    subst hg
    exact ⟨c, [], rfl, by simp⟩
  | g0 :: gs, hok => by
    intro g hg
    rw [insertCand] at hg
    by_cases hcmp : compare_file_bytes fs (path0 c) (path0 (headF g0)) = some true
    · rw [if_pos hcmp] at hg
      rcases List.mem_cons.mp hg with h | h
      · subst h
        obtain ⟨a, t, hat, hlink⟩ := hok g0 (List.mem_cons_self _ _)
        refine ⟨a, t ++ [c], by rw [hat, List.cons_append], ?_⟩
        intro j hj
        rcases List.mem_append.mp hj with hj | hj
        · exact hlink j hj
        · have hjc : j = c := by simpa using hj
          subst hjc
          have ha : headF g0 = a := by rw [hat]; rfl
          rw [← ha]
          exact hcmp
      · exact hok g (List.mem_cons_of_mem _ h)
    · rw [if_neg hcmp] at hg
      rcases List.mem_cons.mp hg with h | h
      · subst h
        exact hok g (List.mem_cons_self _ _)
      · exact insertCand_LinkOK fs c gs
          (fun g' hg' => hok g' (List.mem_cons_of_mem _ hg')) g h

lemma regroupLoop_LinkOK (fs : FsModel) :
    ∀ (cs : List (DedupFile String)) gs, LinkOK fs gs → LinkOK fs (regroupLoop fs cs gs)
  | [], _, hok => hok
  | c :: cs, gs, hok =>
    regroupLoop_LinkOK fs cs _ (insertCand_LinkOK fs c gs hok)

/-- All representative files of all members of all groups are readable. -/
def AllReadable (fs : FsModel) (gs : List (List (DedupFile String))) : Prop :=
  ∀ g ∈ gs, ∀ x ∈ g, (contOf fs x).isSome

/-- Content-class invariant of the provisional clusters (readable case):
clusters are nonempty and content-homogeneous, and distinct clusters hold
distinct contents. -/
def GroupsOK (fs : FsModel) (gs : List (List (DedupFile String))) : Prop :=
  (∀ g ∈ gs, g ≠ [] ∧ ∀ x ∈ g, contOf fs x = contOf fs (headF g)) ∧
  gs.Pairwise (fun g g' => contOf fs (headF g) ≠ contOf fs (headF g'))

lemma contOf_eq (fs : FsModel) (d : DedupFile String) : contOf fs d = fs (path0 d) := rfl

lemma insertCand_heads (fs : FsModel) (c : DedupFile String) :
    ∀ gs, (∀ g ∈ gs, g ≠ ([] : List (DedupFile String))) →
      ∀ g' ∈ insertCand fs c gs, (∃ g0 ∈ gs, headF g' = headF g0) ∨ g' = [c]
  | [], _, g', hg' => by
    simp only [insertCand, List.mem_singleton] at hg'
    exact Or.inr hg'
  | g0 :: gs, hne, g', hg' => by
    rw [insertCand] at hg'
    by_cases hcmp : compare_file_bytes fs (path0 c) (path0 (headF g0)) = some true
    · rw [if_pos hcmp] at hg'
      rcases List.mem_cons.mp hg' with h | h
      · subst h
        exact Or.inl ⟨g0, List.mem_cons_self _ _,
          headF_append [c] (hne g0 (List.mem_cons_self _ _))⟩
      · exact Or.inl ⟨g', List.mem_cons_of_mem _ h, rfl⟩
    · rw [if_neg hcmp] at hg'
      rcases List.mem_cons.mp hg' with h | h
      · subst h
        exact Or.inl ⟨g', List.mem_cons_self _ _, rfl⟩
      · rcases insertCand_heads fs c gs
            (fun g1 hg1 => hne g1 (List.mem_cons_of_mem _ hg1)) g' h with ⟨g1, hg1, he⟩ | he
        · exact Or.inl ⟨g1, List.mem_cons_of_mem _ hg1, he⟩
        · exact Or.inr he

lemma insertCand_GroupsOK (fs : FsModel) (c : DedupFile String)
    (hc : (contOf fs c).isSome) :
    ∀ gs, AllReadable fs gs → GroupsOK fs gs →
      GroupsOK fs (insertCand fs c gs) ∧ AllReadable fs (insertCand fs c gs)
  | [], _, _ => by
    constructor
    · constructor
      · intro g hg
        simp only [insertCand, List.mem_singleton] at hg
        subst hg
        exact ⟨List.cons_ne_nil _ _, by intro x hx; simp at hx; subst hx; rfl⟩
      · simp [insertCand]
    · intro g hg x hx
      simp only [insertCand, List.mem_singleton] at hg
      subst hg
      simp at hx
      subst hx
      exact hc
  | g0 :: gs, hrd, hok => by
    obtain ⟨hall, hpair⟩ := hok
    have hne0 : g0 ≠ [] := (hall g0 (List.mem_cons_self _ _)).1
    have hh0mem : headF g0 ∈ g0 := headF_mem hne0
    have hh0rd : (contOf fs (headF g0)).isSome :=
      hrd g0 (List.mem_cons_self _ _) _ hh0mem
    rw [insertCand]
    by_cases hcmp : compare_file_bytes fs (path0 c) (path0 (headF g0)) = some true
    · rw [if_pos hcmp]
      have hceq : contOf fs c = contOf fs (headF g0) :=
        (compare_true_iff fs _ _ hc hh0rd).mp hcmp
      have hhead : headF (g0 ++ [c]) = headF g0 := headF_append [c] hne0
      refine ⟨⟨?_, ?_⟩, ?_⟩
      · intro g hg
        rcases List.mem_cons.mp hg with h | h
        · subst h
          refine ⟨by simp [hne0], ?_⟩
          intro x hx
          rcases List.mem_append.mp hx with hx | hx
          · rw [hhead]; exact (hall g0 (List.mem_cons_self _ _)).2 x hx
          · have hxc : x = c := by simpa using hx
            subst hxc
            rw [hhead]; exact hceq
        · exact hall g (List.mem_cons_of_mem _ h)
      · rw [List.pairwise_cons] at hpair ⊢
        refine ⟨?_, hpair.2⟩
        intro g' hg'
        rw [hhead]
        exact hpair.1 g' hg'
      · intro g hg x hx
        rcases List.mem_cons.mp hg with h | h
        · subst h
          rcases List.mem_append.mp hx with hx | hx
          · exact hrd g0 (List.mem_cons_self _ _) x hx
          · have hxc : x = c := by simpa using hx
            subst hxc
            exact hc
        · exact hrd g (List.mem_cons_of_mem _ h) x hx
    · rw [if_neg hcmp]
      have hcne : contOf fs c ≠ contOf fs (headF g0) := by
        intro heq
        exact hcmp ((compare_true_iff fs _ _ hc hh0rd).mpr heq)
      have hrdTail : AllReadable fs gs :=
        fun g hg => hrd g (List.mem_cons_of_mem _ hg)
      have hokTail : GroupsOK fs gs :=
        ⟨fun g hg => hall g (List.mem_cons_of_mem _ hg),
         (List.pairwise_cons.mp hpair).2⟩
      obtain ⟨⟨hall2, hpair2⟩, hrd2⟩ := insertCand_GroupsOK fs c hc gs hrdTail hokTail
      refine ⟨⟨?_, ?_⟩, ?_⟩
      · intro g hg
        rcases List.mem_cons.mp hg with h | h
        · subst h; exact hall g (List.mem_cons_self _ _)
        · exact hall2 g h
      · rw [List.pairwise_cons]
        refine ⟨?_, hpair2⟩
        intro g' hg'
        rcases insertCand_heads fs c gs (fun g1 hg1 => (hokTail.1 g1 hg1).1) g' hg'
            with ⟨g1, hg1, he⟩ | he
        · rw [he]
          exact (List.pairwise_cons.mp hpair).1 g1 hg1
        · subst he
          have : headF [c] = c := rfl
          rw [this]
          exact fun heq => hcne heq.symm
      · intro g hg x hx
        rcases List.mem_cons.mp hg with h | h
        · subst h; exact hrd g (List.mem_cons_self _ _) x hx
        · exact hrd2 g h x hx

lemma regroupLoop_GroupsOK (fs : FsModel) :
    ∀ (cs : List (DedupFile String)) gs,
      (∀ a ∈ cs, (contOf fs a).isSome) → AllReadable fs gs → GroupsOK fs gs →
      GroupsOK fs (regroupLoop fs cs gs) ∧ AllReadable fs (regroupLoop fs cs gs)
  | [], gs, _, hrd, hok => ⟨hok, hrd⟩
  | c :: cs, gs, hcs, hrd, hok => by
    obtain ⟨hok2, hrd2⟩ :=
      insertCand_GroupsOK fs c (hcs c (List.mem_cons_self _ _)) gs hrd hok
    exact regroupLoop_GroupsOK fs cs _
      (fun a ha => hcs a (List.mem_cons_of_mem _ ha)) hrd2 hok2

lemma GroupsOK_same_group (fs : FsModel) :
    ∀ gs, GroupsOK fs gs →
      ∀ x y, (∃ g ∈ gs, x ∈ g) → (∃ g ∈ gs, y ∈ g) →
        ((∃ g ∈ gs, x ∈ g ∧ y ∈ g) ↔ contOf fs x = contOf fs y)
  | [], _, x, y, hx, _ => by
    obtain ⟨g, hg, _⟩ := hx
    exact absurd hg (List.not_mem_nil g)
  | g0 :: gs, hok, x, y, hx, hy => by
    obtain ⟨hall, hpair⟩ := hok
    constructor
    · rintro ⟨g, hg, hxg, hyg⟩
      rw [(hall g hg).2 x hxg, (hall g hg).2 y hyg]
    · intro heq
      obtain ⟨gx, hgx, hxgx⟩ := hx
      obtain ⟨gy, hgy, hygy⟩ := hy
      rcases List.mem_cons.mp hgx with h1 | h1 <;> rcases List.mem_cons.mp hgy with h2 | h2
      · exact ⟨g0, List.mem_cons_self _ _, h1 ▸ hxgx, h2 ▸ hygy⟩
      · exfalso
        have e1 : contOf fs x = contOf fs (headF g0) :=
          (hall g0 (List.mem_cons_self _ _)).2 x (h1 ▸ hxgx)
        have e2 : contOf fs y = contOf fs (headF gy) :=
          (hall gy (List.mem_cons_of_mem _ h2)).2 y hygy
        exact (List.pairwise_cons.mp hpair).1 gy h2 (e1.symm.trans (heq.trans e2))
      · exfalso
        have e1 : contOf fs x = contOf fs (headF gx) :=
          (hall gx (List.mem_cons_of_mem _ h1)).2 x hxgx
        have e2 : contOf fs y = contOf fs (headF g0) :=
          (hall g0 (List.mem_cons_self _ _)).2 y (h2 ▸ hygy)
        exact (List.pairwise_cons.mp hpair).1 gx h1 (e2.symm.trans (heq.symm.trans e1))
      · have hokTail : GroupsOK fs gs :=
          ⟨fun g hg => hall g (List.mem_cons_of_mem _ hg),
           (List.pairwise_cons.mp hpair).2⟩
        obtain ⟨g, hg, hxg, hyg⟩ :=
          (GroupsOK_same_group fs gs hokTail x y ⟨gx, h1, hxgx⟩ ⟨gy, h2, hygy⟩).mpr heq
        exact ⟨g, List.mem_cons_of_mem _ hg, hxg, hyg⟩

lemma regroup_mem (fs : FsModel) (cands : List (DedupFile String))
    (g : List (DedupFile String)) :
    g ∈ regroup fs cands ↔ g ∈ regroupLoop fs cands.reverse [] ∧ 1 < g.length := by
  simp [regroup, List.mem_filter]

/-- Characterisation of the groups a full drain of `GroupByContentIter`
yields: exactly the nonempty groups of the output queue plus, for each
queued input group, the groups `regroup` produces for it. -/
lemma drainRev_mem (fs : FsModel) (inq outq : List (List (DedupFile String))) :
    ∀ g, g ∈ drainRev fs inq outq ↔
      ((g ∈ outq ∨ ∃ gi ∈ inq, g ∈ regroup fs gi) ∧ g ≠ []) := by
  induction inq, outq using drainRev.induct fs with
  | case1 inq g0 outq hemp ih =>
    intro g
    rw [drainRev.eq_1, if_pos hemp]
    have h0 : g0 = [] := List.isEmpty_iff.mp hemp
    subst h0
    rw [ih g]
    constructor
    · rintro ⟨h1, h2⟩
      refine ⟨?_, h2⟩
      rcases h1 with h1 | h1
      · exact Or.inl (List.mem_cons_of_mem _ h1)
      · exact Or.inr h1
    · rintro ⟨h1, h2⟩
      refine ⟨?_, h2⟩
      rcases h1 with h1 | h1
      · rcases List.mem_cons.mp h1 with h | h
        · exact absurd h h2
        · exact Or.inl h
      · exact Or.inr h1
  | case2 inq g0 outq hemp ih =>
    intro g
    rw [drainRev.eq_1, if_neg hemp]
    have hne : g0 ≠ [] := by simpa [List.isEmpty_iff] using hemp
    constructor
    · intro hg
      rcases List.mem_cons.mp hg with h | h
      · exact ⟨Or.inl (h ▸ List.mem_cons_self g0 outq), h ▸ hne⟩
      · obtain ⟨h1, h2⟩ := (ih g).mp h
        refine ⟨?_, h2⟩
        rcases h1 with h1 | h1
        · exact Or.inl (List.mem_cons_of_mem _ h1)
        · exact Or.inr h1
    · rintro ⟨h1, h2⟩
      rcases h1 with h1 | h1
      · rcases List.mem_cons.mp h1 with h | h
        · rw [h]; exact List.mem_cons_self _ _
        · exact List.mem_cons_of_mem _ ((ih g).mpr ⟨Or.inl h, h2⟩)
      · exact List.mem_cons_of_mem _ ((ih g).mpr ⟨Or.inr h1, h2⟩)
  | case3 =>
    intro g
    rw [drainRev.eq_2]
    simp
  | case4 gi inq ih =>
    intro g
    rw [drainRev.eq_3, ih g]
    constructor
    · rintro ⟨h1, h2⟩
      refine ⟨?_, h2⟩
      rcases h1 with h1 | h1
      · exact Or.inr ⟨gi, List.mem_cons_self _ _, List.mem_reverse.mp h1⟩
      · obtain ⟨gj, hgj, hm⟩ := h1
        exact Or.inr ⟨gj, List.mem_cons_of_mem _ hgj, hm⟩
    · rintro ⟨h1, h2⟩
      refine ⟨?_, h2⟩
      rcases h1 with h1 | h1
      · exact absurd h1 (List.not_mem_nil g)
      · obtain ⟨gj, hgj, hm⟩ := h1
        rcases List.mem_cons.mp hgj with h | h
        · exact Or.inl (List.mem_reverse.mpr (h ▸ hm))
        · exact Or.inr ⟨gj, h, hm⟩

lemma one_lt_length_of_mem_ne {x y : DedupFile String} {g : List (DedupFile String)}
    (hx : x ∈ g) (hy : y ∈ g) (hne : x ≠ y) : 1 < g.length := by
  match g with
  | [] => exact absurd hx (List.not_mem_nil x)
  | [a] =>
    have hxa : x = a := by simpa using hx
    have hya : y = a := by simpa using hy
    exact absurd (hxa.trans hya.symm) hne
  | a :: b :: t => simp [List.length_cons]

lemma group_by_content_mem (fs : FsModel) (inputs : List (List (DedupFile String)))
    (g : List (DedupFile String)) :
    g ∈ group_by_content fs inputs ↔ ∃ gi ∈ inputs, g ∈ regroup fs gi := by
  rw [group_by_content, drainRev_mem]
  constructor
  · rintro ⟨h1, _⟩
    rcases h1 with h1 | ⟨gi, hgi, hm⟩
    · exact absurd h1 (List.not_mem_nil g)
    · exact ⟨gi, List.mem_reverse.mp hgi, hm⟩
  · rintro ⟨gi, hgi, hm⟩
    have hlen : 1 < g.length := ((regroup_mem fs gi g).mp hm).2
    refine ⟨Or.inr ⟨gi, List.mem_reverse.mpr hgi, hm⟩, ?_⟩
    intro h0
    rw [h0] at hlen
    simp at hlen

/-- **C1.**  For every candidate group fed to the content clusterer (all
members the same size, no two members the same physical file), and assuming
every byte comparison succeeds (every member's representative file is
readable), two members are placed in the same emitted `ContentGroup` if and
only if their files are byte-for-byte identical: byte-identical members end
up in one group, members differing anywhere (including only in the final
partial chunk) never share a group. -/
theorem regroup_same_content_iff (fs : FsModel) (cands : List (DedupFile String))
    (x y : DedupFile String)
    (hsize : ∀ a ∈ cands, ∀ b ∈ cands, a.size = b.size)
    (hdist : cands.Pairwise (fun a b => (a.device, a.inode) ≠ (b.device, b.inode)))
    (hread : ∀ a ∈ cands, (fs (path0 a)).isSome)
    (hx : x ∈ cands) (hy : y ∈ cands)
    (hxy : (x.device, x.inode) ≠ (y.device, y.inode)) :
    (∃ g ∈ group_by_content fs [cands], x ∈ g ∧ y ∈ g) ↔
      fs (path0 x) = fs (path0 y) := by
  have hxny : x ≠ y := fun h => hxy (by rw [h])
  have hok : GroupsOK fs (regroupLoop fs cands.reverse []) := by
    obtain ⟨hok, _⟩ := regroupLoop_GroupsOK fs cands.reverse []
      (fun a ha => hread a (List.mem_reverse.mp ha))
      (fun g hg => absurd hg (List.not_mem_nil g))
      ⟨fun g hg => absurd hg (List.not_mem_nil g), List.Pairwise.nil⟩
    exact hok
  have hperm : (regroupLoop fs cands.reverse []).flatten.Perm cands := by
    have h1 := regroupLoop_flatten_perm fs cands.reverse []
    simp only [List.flatten_nil, List.append_nil] at h1
    exact h1.trans (List.reverse_perm cands)
  have hmemR : ∀ z, z ∈ cands → ∃ g ∈ regroupLoop fs cands.reverse [], z ∈ g := by
    intro z hz
    have : z ∈ (regroupLoop fs cands.reverse []).flatten := hperm.mem_iff.mpr hz
    simpa [List.mem_flatten] using this
  have hmain := GroupsOK_same_group fs _ hok x y (hmemR x hx) (hmemR y hy)
  constructor
  · rintro ⟨g, hg, hxg, hyg⟩
    obtain ⟨gi, hgi, hm⟩ := (group_by_content_mem fs [cands] g).mp hg
    have hgic : gi = cands := by simpa using hgi
    rw [hgic] at hm
    have hgR : g ∈ regroupLoop fs cands.reverse [] := ((regroup_mem fs cands g).mp hm).1
    exact hmain.mp ⟨g, hgR, hxg, hyg⟩
  · intro heq
    obtain ⟨g, hg, hxg, hyg⟩ := hmain.mpr heq
    have hlen : 1 < g.length := one_lt_length_of_mem_ne hxg hyg hxny
    exact ⟨g, (group_by_content_mem fs [cands] g).mpr
      ⟨cands, List.mem_cons_self _ _, (regroup_mem fs cands g).mpr ⟨hg, hlen⟩⟩, hxg, hyg⟩

/-- Witness for C1: two distinct physical files whose contents coincide (a
filesystem mapping every path to the byte string `[7]`) are placed in one
emitted group. -/
theorem regroup_same_content_iff_witness :
    ∃ g ∈ group_by_content (fun _ => some [7])
        [[⟨["a"], 1, 1, 1, 1⟩, ⟨["b"], 1, 1, 2, 1⟩]],
      (⟨["a"], 1, 1, 1, 1⟩ : DedupFile String) ∈ g ∧
        (⟨["b"], 1, 1, 2, 1⟩ : DedupFile String) ∈ g :=
  (regroup_same_content_iff (fun _ => some [7])
    [⟨["a"], 1, 1, 1, 1⟩, ⟨["b"], 1, 1, 2, 1⟩] _ _
    (by intro a ha b hb; fin_cases ha <;> fin_cases hb <;> rfl)
    (by simp)
    (by intro a _; rfl)
    (List.mem_cons_self _ _)
    (List.mem_cons_of_mem _ (List.mem_cons_self _ _))
    (by decide)).mpr rfl

lemma count_le_of_mem_flatten (c : DedupFile String) :
    ∀ (gs : List (List (DedupFile String))) g, g ∈ gs → g.count c ≤ gs.flatten.count c
  | [], g, hg => absurd hg (List.not_mem_nil g)
  | g0 :: gs, g, hg => by
    rw [List.flatten_cons, List.count_append]
    rcases List.mem_cons.mp hg with h | h
    · rw [h]; exact Nat.le_add_right _ _
    · exact Nat.le_trans (count_le_of_mem_flatten c gs g h) (Nat.le_add_left _ _)

/-- **C5.**  Every group the content clusterer yields contains at least 2
members, and a candidate whose content matches no other candidate in its
input group appears in no yielded group. -/
theorem clusterer_min_two_and_singleton_drop (fs : FsModel)
    (inputs : List (List (DedupFile String))) (c : DedupFile String)
    (hread : ∀ gi ∈ inputs, ∀ d ∈ gi, (fs (path0 d)).isSome)
    (hdist : ∀ gi ∈ inputs,
      gi.Pairwise (fun a b => (a.device, a.inode) ≠ (b.device, b.inode)))
    (hno : ∀ gi ∈ inputs, ∀ d ∈ gi, d ≠ c → fs (path0 d) ≠ fs (path0 c)) :
    (∀ g ∈ group_by_content fs inputs, 2 ≤ g.length) ∧
      (∀ g ∈ group_by_content fs inputs, c ∉ g) := by
  have hmem2 : ∀ g ∈ group_by_content fs inputs, 2 ≤ g.length := by
    intro g hg
    obtain ⟨gi, hgi, hm⟩ := (group_by_content_mem fs inputs g).mp hg
    exact ((regroup_mem fs gi g).mp hm).2
  refine ⟨hmem2, ?_⟩
  intro g hg hcg
  obtain ⟨gi, hgi, hm⟩ := (group_by_content_mem fs inputs g).mp hg
  obtain ⟨hgR, hlen⟩ := (regroup_mem fs gi g).mp hm
  have hok : GroupsOK fs (regroupLoop fs gi.reverse []) := by
    obtain ⟨hok, _⟩ := regroupLoop_GroupsOK fs gi.reverse []
      (fun a ha => hread gi hgi a (List.mem_reverse.mp ha))
      (fun g' hg' => absurd hg' (List.not_mem_nil g'))
      ⟨fun g' hg' => absurd hg' (List.not_mem_nil g'), List.Pairwise.nil⟩
    exact hok
  have hperm : (regroupLoop fs gi.reverse []).flatten.Perm gi := by
    have h1 := regroupLoop_flatten_perm fs gi.reverse []
    simp only [List.flatten_nil, List.append_nil] at h1
    exact h1.trans (List.reverse_perm gi)
  have hnodup : gi.Nodup :=
    (hdist gi hgi).imp (fun hab => fun heq => hab (by rw [heq]))
  have hcount1 : gi.count c ≤ 1 := List.nodup_iff_count_le_one.mp hnodup c
  have hcountg : g.count c ≤ 1 := by
    have h1 := count_le_of_mem_flatten c (regroupLoop fs gi.reverse []) g hgR
    have h2 : (regroupLoop fs gi.reverse []).flatten.count c = gi.count c :=
      hperm.count_eq c
    omega
  have hex : ∃ d ∈ g, d ≠ c := by
    by_contra hnone
    push_neg at hnone
    have hcl : g.count c = g.length :=
      List.count_eq_length.mpr (fun b hb => (hnone b hb).symm)
    omega
  obtain ⟨d, hd, hdc⟩ := hex
  have hcc : contOf fs c = contOf fs (headF g) := (hok.1 g hgR).2 c hcg
  have hdd : contOf fs d = contOf fs (headF g) := (hok.1 g hgR).2 d hd
  have hdgi : d ∈ gi := hperm.mem_iff.mp (List.mem_flatten.mpr ⟨g, hgR, hd⟩)
  exact hno gi hgi d hdgi hdc (hdd.trans hcc.symm)

/-- Witness for C5: a two-candidate size bucket with differing contents —
every yielded group (there are none) has two members, and the unmatched
candidate `"a"` appears in no yielded group. -/
theorem clusterer_min_two_and_singleton_drop_witness :
    (∀ g ∈ group_by_content (fun p => if p = "a" then some [1] else some [2])
        [[⟨["a"], 1, 1, 1, 1⟩, ⟨["b"], 1, 1, 2, 1⟩]], 2 ≤ g.length) ∧
      (∀ g ∈ group_by_content (fun p => if p = "a" then some [1] else some [2])
        [[⟨["a"], 1, 1, 1, 1⟩, ⟨["b"], 1, 1, 2, 1⟩]],
        (⟨["a"], 1, 1, 1, 1⟩ : DedupFile String) ∉ g) :=
  clusterer_min_two_and_singleton_drop _ _ _
    (by intro gi hgi d hd; fin_cases hgi; fin_cases hd <;> decide)
    (by intro gi hgi; fin_cases hgi; decide)
    (by
      intro gi hgi d hd hne
      fin_cases hgi
      fin_cases hd
      · exact absurd rfl hne
      · decide)

/-- **C4, counterexample.**  The claim says a failing byte comparison is
propagated to the caller as a fatal pipeline error rather than silently
treated as the files being unequal.  On the code it is not: with the second
candidate's file unreadable, the comparison fails (`none`), yet the
clusterer completes normally and returns the ordinary value `[]` — exactly
the silent "treated as unequal" outcome (`if let Ok(true)` in `regroup`
discards the `Err`; neither `regroup` nor `GroupByContentIter` has an error
channel in its type). -/
theorem comparison_error_not_propagated_counterexample :
    compare_file_bytes (fun p => if p = "a" then some [1, 2, 3] else none) "a" "b" = none ∧
      group_by_content (fun p => if p = "a" then some [1, 2, 3] else none)
        [[⟨["a"], 3, 1, 1, 1⟩, ⟨["b"], 3, 1, 2, 1⟩]] = [] := by
  constructor
  · decide
  · have hreg : regroup (fun p => if p = "a" then some [1, 2, 3] else none)
        [⟨["a"], 3, 1, 1, 1⟩, ⟨["b"], 3, 1, 2, 1⟩] = [] := by decide
    unfold group_by_content
    have h1 : ([[(⟨["a"], 3, 1, 1, 1⟩ : DedupFile String), ⟨["b"], 3, 1, 2, 1⟩]] :
        List (List (DedupFile String))).reverse
        = [[⟨["a"], 3, 1, 1, 1⟩, ⟨["b"], 3, 1, 2, 1⟩]] := rfl
    rw [h1, drainRev.eq_3, hreg]
    exact drainRev.eq_2 _

/-- **C4, amended.**  A byte comparison that fails with an I/O error is
silently swallowed rather than propagated: every comparison involving the
unreadable file returns `none`, `regroup`'s `if let Ok(true)` treats that
exactly like "not equal", the affected candidate appears in no yielded
group, and the clusterer still returns an ordinary group list (its type has
no error channel). -/
theorem comparison_error_swallowed (fs : FsModel)
    (inputs : List (List (DedupFile String))) (x : DedupFile String)
    (hx : fs (path0 x) = none) :
    (∀ p, compare_file_bytes fs p (path0 x) = none ∧
        compare_file_bytes fs (path0 x) p = none) ∧
      ∀ g ∈ group_by_content fs inputs, x ∉ g := by
  constructor
  · intro p
    exact ⟨compare_file_bytes_none_right fs p _ hx,
      compare_file_bytes_none_left fs _ p hx⟩
  · intro g hg hxg
    obtain ⟨gi, hgi, hm⟩ := (group_by_content_mem fs inputs g).mp hg
    obtain ⟨hgR, hlen⟩ := (regroup_mem fs gi g).mp hm
    have hlink : LinkOK fs (regroupLoop fs gi.reverse []) :=
      regroupLoop_LinkOK fs gi.reverse []
        (fun g' hg' => absurd hg' (List.not_mem_nil g'))
    obtain ⟨a, t, hat, hlk⟩ := hlink g hgR
    subst hat
    rcases List.mem_cons.mp hxg with h | h
    · cases t with
      | nil => simp at hlen
      | cons b t' =>
        have hcb := hlk b (List.mem_cons_self _ _)
        rw [← h] at hcb
        rw [compare_file_bytes_none_right fs _ _ hx] at hcb
        simp at hcb
    · have hcx := hlk x h
      rw [compare_file_bytes_none_left fs _ _ hx] at hcx
      simp at hcx

/-- Witness for the amended C4: with a filesystem on which every open
fails, every comparison against the candidate's path fails, and the
candidate is yielded in no group. -/
theorem comparison_error_swallowed_witness :
    (∀ p, compare_file_bytes (fun _ => none) p "a" = none ∧
        compare_file_bytes (fun _ => none) "a" p = none) ∧
      ∀ g ∈ group_by_content (fun _ => none) [[⟨["a"], 1, 1, 1, 1⟩]],
        (⟨["a"], 1, 1, 1, 1⟩ : DedupFile String) ∉ g :=
  comparison_error_swallowed (fun _ => none) [[⟨["a"], 1, 1, 1, 1⟩]]
    ⟨["a"], 1, 1, 1, 1⟩ rfl

/-! ## The walker: filtering, failure policy, cycle guard, traversal order -/

lemma is_wanted_dir_iff (s : WalkState P) (m : FMeta) :
    is_wanted_dir s m = true ↔
      m.ftype = FType.dir ∧ (m.dev, m.ino) ∉ s.seen_dirs := by
  simp [is_wanted_dir, List.contains, List.elem_iff]

lemma is_wanted_file_iff (s : WalkState P) (m : FMeta) :
    is_wanted_file s m = true ↔
      m.ftype = FType.file ∧ s.min_size ≤ m.size := by
  simp [is_wanted_file]

lemma push_child_eq_dir {s : WalkState P} {p : P} {m : FMeta}
    (h : is_wanted_dir s m = true) :
    push_child s p m = { s with dir_queue := p :: s.dir_queue } := by
  simp [push_child, h]

lemma push_child_eq_file {s : WalkState P} {p : P} {m : FMeta}
    (h1 : is_wanted_dir s m = false) (h2 : is_wanted_file s m = true) :
    push_child s p m =
      { s with file_queue := ⟨[p], m.size, m.dev, m.ino, m.nlink⟩ :: s.file_queue } := by
  simp [push_child, h1, h2]

lemma push_child_eq_skip {s : WalkState P} {p : P} {m : FMeta}
    (h1 : is_wanted_dir s m = false) (h2 : is_wanted_file s m = false) :
    push_child s p m = s := by
  simp [push_child, h1, h2]

/-- **C8.**  `push_child` enqueues an entry as a file only if its metadata
reports a regular file of size at least the configured minimum; an entry
whose metadata reports a directory is enqueued for expansion regardless of
its size, subject only to the cycle guard; entries that are neither
(symlinks, sockets, pipes, device nodes) leave the state unchanged, hence
are never emitted. -/
theorem push_child_filtering (s : WalkState P) (p : P) (m : FMeta) :
    ((push_child s p m).file_queue ≠ s.file_queue →
        m.ftype = FType.file ∧ s.min_size ≤ m.size) ∧
      (m.ftype = FType.file → s.min_size ≤ m.size →
        (push_child s p m).file_queue =
          ⟨[p], m.size, m.dev, m.ino, m.nlink⟩ :: s.file_queue) ∧
      (m.ftype = FType.dir →
        ((m.dev, m.ino) ∉ s.seen_dirs → (push_child s p m).dir_queue = p :: s.dir_queue) ∧
          ((m.dev, m.ino) ∈ s.seen_dirs → push_child s p m = s)) ∧
      (m.ftype = FType.other → push_child s p m = s) := by
  refine ⟨?_, ?_, ?_, ?_⟩
  · intro hne
    by_cases hwd : is_wanted_dir s m = true
    · rw [push_child_eq_dir hwd] at hne
      exact absurd rfl hne
    · by_cases hwf : is_wanted_file s m = true
      · exact (is_wanted_file_iff s m).mp hwf
      · rw [push_child_eq_skip (Bool.not_eq_true _ ▸ hwd) (Bool.not_eq_true _ ▸ hwf)] at hne
        exact absurd rfl hne
  · intro hf hsz
    have hwd : is_wanted_dir s m = false := by
      simp [is_wanted_dir, hf]
    have hwf : is_wanted_file s m = true := (is_wanted_file_iff s m).mpr ⟨hf, hsz⟩
    rw [push_child_eq_file hwd hwf]
  · intro hd
    constructor
    · intro hseen
      rw [push_child_eq_dir ((is_wanted_dir_iff s m).mpr ⟨hd, hseen⟩)]
    · intro hseen
      have hwd : is_wanted_dir s m = false := by
        rcases Bool.eq_false_or_eq_true (is_wanted_dir s m) with h | h
        · exact absurd hseen ((is_wanted_dir_iff s m).mp h).2
        · exact h
      have hwf : is_wanted_file s m = false := by
        simp [is_wanted_file, hd]
      exact push_child_eq_skip hwd hwf
  · intro ho
    have hwd : is_wanted_dir s m = false := by simp [is_wanted_dir, ho]
    have hwf : is_wanted_file s m = false := by simp [is_wanted_file, ho]
    exact push_child_eq_skip hwd hwf

/-- Witness for C8 at a concrete state and metadata: a symlink-like entry
(`FType.other`) is never enqueued. -/
theorem push_child_filtering_witness :
    push_child (⟨0, [], [], []⟩ : WalkState Nat) 1 ⟨FType.other, 5, 1, 2, 1⟩ =
      ⟨0, [], [], []⟩ :=
  (push_child_filtering (⟨0, [], [], []⟩ : WalkState Nat) 1
    ⟨FType.other, 5, 1, 2, 1⟩).2.2.2 rfl

/-- **C9.**  A directory that cannot be listed contributes no children and
causes no error — the step succeeds and the walk continues over the
remaining queues unchanged; a child whose metadata cannot be read is
skipped without being enqueued; and in both cases the rest of the run is
exactly the run over the remaining state, so the iterator still yields all
remaining reachable files. -/
theorem walker_skips_unreadable (fs : WalkFS P) (ms : Nat) (d : P)
    (dq : List P) (seen : List (Nat × Nat)) (c : P) (cs : List P)
    (s : WalkState P) (fuel : Nat)
    (hrd : fs.readDir d = none) (hmc : fs.meta c = none) :
    walkStep fs ⟨ms, [], d :: dq, seen⟩ = StepRes.cont ⟨ms, [], dq, seen⟩ ∧
      expandChildren fs s (c :: cs) = expandChildren fs s cs ∧
      walkRun fs (fuel + 1) ⟨ms, [], d :: dq, seen⟩ =
        walkRun fs fuel ⟨ms, [], dq, seen⟩ := by
  have h1 : walkStep fs ⟨ms, [], d :: dq, seen⟩ = StepRes.cont ⟨ms, [], dq, seen⟩ := by
    simp [walkStep, read_dir_optimistically, hrd, expandChildren]
  refine ⟨h1, ?_, ?_⟩
  · simp [expandChildren, hmc]
  · simp [walkRun, h1]

/-- Witness for C9: on a filesystem where every listing and every metadata
read fails, the root directory is popped silently and the walk finishes. -/
theorem walker_skips_unreadable_witness :
    walkStep (⟨fun _ => none, fun _ => none⟩ : WalkFS Nat) ⟨0, [], [0], []⟩ =
        StepRes.cont ⟨0, [], [], []⟩ ∧
      expandChildren (⟨fun _ => none, fun _ => none⟩ : WalkFS Nat)
          ⟨0, [], [], []⟩ [1] =
        expandChildren (⟨fun _ => none, fun _ => none⟩ : WalkFS Nat)
          ⟨0, [], [], []⟩ [] ∧
      walkRun (⟨fun _ => none, fun _ => none⟩ : WalkFS Nat) 1 ⟨0, [], [0], []⟩ =
        walkRun (⟨fun _ => none, fun _ => none⟩ : WalkFS Nat) 0 ⟨0, [], [], []⟩ :=
  walker_skips_unreadable (⟨fun _ => none, fun _ => none⟩ : WalkFS Nat)
    0 0 [] [] 1 [] ⟨0, [], [], []⟩ 0 rfl rfl

/-- **C3 (code bug).**  The claim says a directory whose `(device, inode)`
pair has already been expanded is never expanded again, so a cyclic root
(bind mount) terminates the walk.  In the source nothing ever inserts into
`seen_dirs` (`HashSet::new()` at construction, only `contains` in
`is_wanted_dir`), so the guard never fires: on the cyclic hierarchy `cycFS`
— whose every path is the same physical directory `(7, 7)` — each loop
iteration of `next()` pops path `k`, re-expands the already-expanded
`(7, 7)` and pushes path `k + 1`; the iteration never reaches `done`,
whatever the fuel. -/
theorem walker_cycle_nontermination :
    (∀ k, walkStep cycFS (cycState k) = StepRes.cont (cycState (k + 1))) ∧
      ∀ fuel k, walkRun cycFS fuel (cycState k) = ([], false) := by
  have hstep : ∀ k, walkStep cycFS (cycState k) = StepRes.cont (cycState (k + 1)) := by
    intro k
    rfl
  refine ⟨hstep, ?_⟩
  intro fuel
  induction fuel with
  | zero => intro k; rfl
  | succ n ih =>
    intro k
    simp [walkRun, hstep k, ih (k + 1)]

/-- **C7 (code bug).**  Both walker queues are Rust `Vec`s with push/pop at
the end, so pending directories are expanded LIFO — depth-first across
pending directories, not level by level.  On `bfsFS` the walk emits file 5
(depth 3, in the later-discovered subtree) *before* file 4 (depth 2):
directory 3 (depth 2) is expanded while directory 1 (depth 1) is still
pending, contradicting the claimed breadth-first level ordering (and the
comment at `src/group_by_inode.rs` lines 65–66). -/
theorem walker_emits_deeper_file_first :
    walkRun bfsFS 10 (group_by_inode 0 0) =
      ([⟨[5], 1, 1, 5, 1⟩, ⟨[4], 1, 1, 4, 1⟩], true) := by
  decide

/-! ## The Inode Consolidator: uniqueness and path accumulation -/

lemma keyOf_upsert_update (r a : DedupFile P) :
    keyOf (if keyOf a = keyOf r then
        { a with paths := a.paths ++ r.paths, size := r.size, nlink := r.nlink }
      else a) = keyOf a := by
  by_cases h : keyOf a = keyOf r
  · rw [if_pos h]
    rfl
  · rw [if_neg h]

lemma upsertRecord_inv (processed acc : List (DedupFile P)) (r : DedupFile P)
    (h1 : acc.Pairwise (fun a b => keyOf a ≠ keyOf b))
    (h2 : ∀ k, (∃ a ∈ acc, keyOf a = k) ↔ ∃ q ∈ processed, keyOf q = k)
    (h3 : ∀ a ∈ acc, a.paths =
      ((processed.filter (fun q => decide (keyOf q = keyOf a))).map
        DedupFile.paths).flatten) :
    (upsertRecord acc r).Pairwise (fun a b => keyOf a ≠ keyOf b) ∧
      (∀ k, (∃ a ∈ upsertRecord acc r, keyOf a = k) ↔
        ∃ q ∈ processed ++ [r], keyOf q = k) ∧
      (∀ a ∈ upsertRecord acc r, a.paths =
        (((processed ++ [r]).filter (fun q => decide (keyOf q = keyOf a))).map
          DedupFile.paths).flatten) := by
  by_cases hany : acc.any (fun a => decide (keyOf a = keyOf r)) = true
  · obtain ⟨a0, ha0, ha0k⟩ : ∃ a0 ∈ acc, keyOf a0 = keyOf r := by
      simpa using hany
    have hres : upsertRecord acc r = acc.map (fun a =>
        if keyOf a = keyOf r then
          { a with paths := a.paths ++ r.paths, size := r.size, nlink := r.nlink }
        else a) := by
      simp [upsertRecord, hany]
    rw [hres]
    refine ⟨?_, ?_, ?_⟩
    · rw [List.pairwise_map]
      refine h1.imp ?_
      intro a b hab
      rw [keyOf_upsert_update, keyOf_upsert_update]
      exact hab
    · intro k
      constructor
      · rintro ⟨a', ha', hk⟩
        obtain ⟨a, ha, rfl⟩ := List.mem_map.mp ha'
        rw [keyOf_upsert_update] at hk
        obtain ⟨q, hq, hqk⟩ := (h2 k).mp ⟨a, ha, hk⟩
        exact ⟨q, List.mem_append_left _ hq, hqk⟩
      · rintro ⟨q, hq, hqk⟩
        rcases List.mem_append.mp hq with hq | hq
        · obtain ⟨a, ha, hk⟩ := (h2 k).mpr ⟨q, hq, hqk⟩
          refine ⟨_, List.mem_map_of_mem _ ha, ?_⟩
          rw [keyOf_upsert_update]
          exact hk
        · have hqr : q = r := by simpa using hq
          refine ⟨_, List.mem_map_of_mem _ ha0, ?_⟩
          rw [keyOf_upsert_update, ha0k]
          exact hqr ▸ hqk
    · intro a' ha'
      obtain ⟨a, ha, rfl⟩ := List.mem_map.mp ha'
      rw [keyOf_upsert_update, List.filter_append, List.map_append,
        List.flatten_append]
      by_cases hk : keyOf a = keyOf r
      · rw [if_pos hk]
        have hdec : decide (keyOf r = keyOf a) = true := decide_eq_true hk.symm
        have hfr : ([r].filter (fun q => decide (keyOf q = keyOf a))) = [r] := by
          simp [List.filter, hdec]
        rw [hfr]
        simp [h3 a ha]
      · rw [if_neg hk]
        have hdec : decide (keyOf r = keyOf a) = false :=
          decide_eq_false (fun h => hk h.symm)
        have hfr : ([r].filter (fun q => decide (keyOf q = keyOf a))) = [] := by
          simp [List.filter, hdec]
        rw [hfr]
        simp [h3 a ha]
  · have hno : ∀ a ∈ acc, keyOf a ≠ keyOf r := by
      intro a ha hk
      exact hany (List.any_eq_true.mpr ⟨a, ha, by simp [hk]⟩)
    have hres : upsertRecord acc r = acc ++ [r] := by
      simp only [upsertRecord, if_neg hany]
    rw [hres]
    refine ⟨?_, ?_, ?_⟩
    · rw [List.pairwise_append]
      refine ⟨h1, List.pairwise_singleton _ _, ?_⟩
      intro a ha b hb
      have hbr : b = r := by simpa using hb
      rw [hbr]
      exact hno a ha
    · intro k
      constructor
      · rintro ⟨a, ha, hk⟩
        rcases List.mem_append.mp ha with ha | ha
        · obtain ⟨q, hq, hqk⟩ := (h2 k).mp ⟨a, ha, hk⟩
          exact ⟨q, List.mem_append_left _ hq, hqk⟩
        · have har : a = r := by simpa using ha
          exact ⟨r, List.mem_append_right _ (by simp), har ▸ hk⟩
      · rintro ⟨q, hq, hqk⟩
        rcases List.mem_append.mp hq with hq | hq
        · obtain ⟨a, ha, hk⟩ := (h2 k).mpr ⟨q, hq, hqk⟩
          exact ⟨a, List.mem_append_left _ ha, hk⟩
        · have hqr : q = r := by simpa using hq
          exact ⟨r, List.mem_append_right _ (by simp), hqr ▸ hqk⟩
    · intro a ha
      rcases List.mem_append.mp ha with ha | ha
      · rw [List.filter_append, List.map_append, List.flatten_append]
        have hdec : decide (keyOf r = keyOf a) = false :=
          decide_eq_false (fun h => hno a ha h.symm)
        have hfr : ([r].filter (fun q => decide (keyOf q = keyOf a))) = [] := by
          simp [List.filter, hdec]
        rw [hfr]
        simp [h3 a ha]
      · have har : a = r := by simpa using ha
        subst har
        have hfp : (processed.filter (fun q => decide (keyOf q = keyOf a))) = [] := by
          rw [List.filter_eq_nil_iff]
          intro q hq hdec
          have hqk : keyOf q = keyOf a := of_decide_eq_true hdec
          obtain ⟨b, hb, hbk⟩ := (h2 (keyOf a)).mpr ⟨q, hq, hqk⟩
          exact hno b hb hbk
        rw [List.filter_append, List.map_append, List.flatten_append, hfp]
        simp

lemma consolidate_loop_inv :
    ∀ (recs processed acc : List (DedupFile P)),
      acc.Pairwise (fun a b => keyOf a ≠ keyOf b) →
      (∀ k, (∃ a ∈ acc, keyOf a = k) ↔ ∃ q ∈ processed, keyOf q = k) →
      (∀ a ∈ acc, a.paths =
        ((processed.filter (fun q => decide (keyOf q = keyOf a))).map
          DedupFile.paths).flatten) →
      (recs.foldl upsertRecord acc).Pairwise (fun a b => keyOf a ≠ keyOf b) ∧
        (∀ k, (∃ a ∈ recs.foldl upsertRecord acc, keyOf a = k) ↔
          ∃ q ∈ processed ++ recs, keyOf q = k) ∧
        (∀ a ∈ recs.foldl upsertRecord acc, a.paths =
          (((processed ++ recs).filter (fun q => decide (keyOf q = keyOf a))).map
            DedupFile.paths).flatten)
  | [], processed, acc, h1, h2, h3 => by
    rw [List.foldl_nil, List.append_nil]
    exact ⟨h1, h2, h3⟩
  | r :: recs, processed, acc, h1, h2, h3 => by
    obtain ⟨k1, k2, k3⟩ := upsertRecord_inv processed acc r h1 h2 h3
    have hrec := consolidate_loop_inv recs (processed ++ [r]) (upsertRecord acc r)
      k1 k2 k3
    rw [List.append_assoc, List.singleton_append] at hrec
    rw [List.foldl_cons]
    exact hrec

/-- **C2.**  (Spec-modelled: the Inode Consolidator is not among the
sources under `src/`; `consolidate` follows the spec's §4.2 contract.)
For every walker record stream, the consolidated stream carries, for each
distinct `(device, inode)` pair observed, exactly one record, whose `paths`
concatenates every observed path for that pair in discovery order; no two
delivered records share a `(device, inode)` pair. -/
theorem consolidate_unique_and_paths (recs : List (DedupFile P)) :
    (consolidate recs).Pairwise (fun a b => keyOf a ≠ keyOf b) ∧
      (∀ r ∈ recs, ∃ a ∈ consolidate recs, keyOf a = keyOf r) ∧
      (∀ a ∈ consolidate recs, (∃ r ∈ recs, keyOf r = keyOf a) ∧
        a.paths = ((recs.filter (fun q => decide (keyOf q = keyOf a))).map
          DedupFile.paths).flatten) := by
  obtain ⟨h1, h2, h3⟩ := consolidate_loop_inv recs [] []
    List.Pairwise.nil (by simp) (by simp)
  rw [List.nil_append] at h2 h3
  refine ⟨h1, ?_, ?_⟩
  · intro r hr
    exact (h2 (keyOf r)).mpr ⟨r, hr, rfl⟩
  · intro a ha
    exact ⟨(h2 (keyOf a)).mp ⟨a, ha, rfl⟩, h3 a ha⟩

/-- Witness for C2: two hard links to the same physical file (device 1,
inode 9) consolidate into a single record listing both paths in discovery
order. -/
theorem consolidate_unique_and_paths_witness :
    ∃ a ∈ consolidate [(⟨["p"], 5, 1, 9, 2⟩ : DedupFile String), ⟨["q"], 5, 1, 9, 2⟩],
      keyOf a = (1, 9) ∧ a.paths = ["p", "q"] := by
  obtain ⟨a, ha, hk⟩ :=
    (consolidate_unique_and_paths
      [(⟨["p"], 5, 1, 9, 2⟩ : DedupFile String), ⟨["q"], 5, 1, 9, 2⟩]).2.1
      ⟨["p"], 5, 1, 9, 2⟩ (List.mem_cons_self _ _)
  refine ⟨a, ha, hk, ?_⟩
  have hpaths := ((consolidate_unique_and_paths
      [(⟨["p"], 5, 1, 9, 2⟩ : DedupFile String), ⟨["q"], 5, 1, 9, 2⟩]).2.2 a ha).2
  rw [hpaths, hk]
  decide

/-! ## The size-spec parser: correctness and overflow behaviour -/

lemma char_toNat_le_of_le {c d : Char} (h : c ≤ d) : c.toNat ≤ d.toNat := h

lemma char_ofNat_toNat {n : Nat} (h : Nat.isValidChar n) :
    (Char.ofNat n).toNat = n := by
  unfold Char.ofNat
  rw [dif_pos h]
  simp [Char.ofNatAux, Char.toNat, UInt32.toNat, BitVec.toNat_ofNatLt]

lemma toLowerAscii_idem (c : Char) :
    toLowerAscii (toLowerAscii c) = toLowerAscii c := by
  unfold toLowerAscii
  by_cases h : 'A' ≤ c ∧ c ≤ 'Z'
  · rw [if_pos h]
    have hZ : c.toNat ≤ 90 := char_toNat_le_of_le h.2
    have hvalid : Nat.isValidChar (c.toNat + 32) := by
      unfold Nat.isValidChar
      omega
    have htn : (Char.ofNat (c.toNat + 32)).toNat = c.toNat + 32 :=
      char_ofNat_toNat hvalid
    rw [if_neg]
    intro hcon
    have h90 : (Char.ofNat (c.toNat + 32)).toNat ≤ 90 := char_toNat_le_of_le hcon.2
    rw [htn] at h90
    have h65 : 65 ≤ c.toNat := char_toNat_le_of_le h.1
    omega
  · rw [if_neg h, if_neg h]

lemma takeWhile_dropWhile_split (Pp : Char → Bool) :
    ∀ (num suf : List Char), (∀ c ∈ num, Pp c = true) →
      (∀ c, suf.head? = some c → Pp c = false) →
      (num ++ suf).takeWhile Pp = num ∧ (num ++ suf).dropWhile Pp = suf
  | [], suf, _, hsuf => by
    cases suf with
    | nil => simp
    | cons c t =>
      have hc : Pp c = false := hsuf c rfl
      simp [List.takeWhile_cons, List.dropWhile_cons, hc]
  | n :: num, suf, hnum, hsuf => by
    have hn : Pp n = true := hnum n (List.mem_cons_self _ _)
    have ih := takeWhile_dropWhile_split Pp num suf
      (fun c hc => hnum c (List.mem_cons_of_mem _ hc)) hsuf
    simp [List.takeWhile_cons, List.dropWhile_cons, hn, ih.1, ih.2]

/-- The code's `match suffix` table coincides with the table as the spec
words it (powers of 1000 for k/m/g/t, powers of 1024 for ki/mi/gi/ti, each
optionally followed by `b`). -/
lemma multiplierOf_eq_spec (suffix : List Char) :
    multiplierOf suffix = specMultiplier suffix := by
  by_cases h0 : suffix = []
  · subst h0; decide
  by_cases h1 : suffix = ['k']
  · subst h1; decide
  by_cases h2 : suffix = ['k', 'b']
  · subst h2; decide
  by_cases h3 : suffix = ['m']
  · subst h3; decide
  by_cases h4 : suffix = ['m', 'b']
  · subst h4; decide
  by_cases h5 : suffix = ['g']
  · subst h5; decide
  by_cases h6 : suffix = ['g', 'b']
  · subst h6; decide
  by_cases h7 : suffix = ['t']
  · subst h7; decide
  by_cases h8 : suffix = ['t', 'b']
  · subst h8; decide
  by_cases h9 : suffix = ['k', 'i']
  · subst h9; decide
  by_cases h10 : suffix = ['k', 'i', 'b']
  · subst h10; decide
  by_cases h11 : suffix = ['m', 'i']
  · subst h11; decide
  by_cases h12 : suffix = ['m', 'i', 'b']
  · subst h12; decide
  by_cases h13 : suffix = ['g', 'i']
  · subst h13; decide
  by_cases h14 : suffix = ['g', 'i', 'b']
  · subst h14; decide
  by_cases h15 : suffix = ['t', 'i']
  · subst h15; decide
  by_cases h16 : suffix = ['t', 'i', 'b']
  · subst h16; decide
  have hmul : multiplierOf suffix = none := by
    simp [multiplierOf, h0, h1, h2, h3, h4, h5, h6, h7, h8, h9, h10, h11, h12,
      h13, h14, h15, h16]
  rw [hmul]
  rcases hsuffix : suffix with _ | ⟨c, rest⟩
  · exact absurd hsuffix h0
  subst hsuffix
  rcases hsi : siPower c with _ | p
  · simp [specMultiplier, hsi]
  · have hc : c = 'k' ∨ c = 'm' ∨ c = 'g' ∨ c = 't' := by
      by_cases hk : c = 'k'
      · exact Or.inl hk
      by_cases hm : c = 'm'
      · exact Or.inr (Or.inl hm)
      by_cases hg : c = 'g'
      · exact Or.inr (Or.inr (Or.inl hg))
      by_cases ht : c = 't'
      · exact Or.inr (Or.inr (Or.inr ht))
      unfold siPower at hsi
      rw [if_neg hk, if_neg hm, if_neg hg, if_neg ht] at hsi
      exact Option.noConfusion hsi
    rcases hc with rfl | rfl | rfl | rfl
    · have r1 : rest ≠ [] := fun hr => h1 (by rw [hr])
      have r2 : rest ≠ ['b'] := fun hr => h2 (by rw [hr])
      have r3 : rest ≠ ['i'] := fun hr => h9 (by rw [hr])
      have r4 : rest ≠ ['i', 'b'] := fun hr => h10 (by rw [hr])
      simp [specMultiplier, hsi, r1, r2, r3, r4]
    · have r1 : rest ≠ [] := fun hr => h3 (by rw [hr])
      have r2 : rest ≠ ['b'] := fun hr => h4 (by rw [hr])
      have r3 : rest ≠ ['i'] := fun hr => h11 (by rw [hr])
      have r4 : rest ≠ ['i', 'b'] := fun hr => h12 (by rw [hr])
      simp [specMultiplier, hsi, r1, r2, r3, r4]
    · have r1 : rest ≠ [] := fun hr => h5 (by rw [hr])
      have r2 : rest ≠ ['b'] := fun hr => h6 (by rw [hr])
      have r3 : rest ≠ ['i'] := fun hr => h13 (by rw [hr])
      have r4 : rest ≠ ['i', 'b'] := fun hr => h14 (by rw [hr])
      simp [specMultiplier, hsi, r1, r2, r3, r4]
    · have r1 : rest ≠ [] := fun hr => h7 (by rw [hr])
      have r2 : rest ≠ ['b'] := fun hr => h8 (by rw [hr])
      have r3 : rest ≠ ['i'] := fun hr => h15 (by rw [hr])
      have r4 : rest ≠ ['i', 'b'] := fun hr => h16 (by rw [hr])
      simp [specMultiplier, hsi, r1, r2, r3, r4]

/-- Closed form of `parse_file_size_spec` given a characterisation of the
split of the lowercased input into its numeric part and its suffix. -/
lemma parse_file_size_spec_eq (s : String) (num suf : List Char)
    (hsplit : s.data.map toLowerAscii = num ++ suf)
    (hnum : ∀ c ∈ num, isAsciiAlpha c = false)
    (hsuf : ∀ c, suf.head? = some c → isAsciiAlpha c = true) :
    parse_file_size_spec s =
      match specMultiplier suf with
      | none => Except.error
          ("Failed to parse file size (bad multiplier -- got \"" ++ s ++ "\")")
      | some mult =>
          match parseU64 num with
          | some n => Except.ok ((n * mult) % 2 ^ 64)
          | none => Except.error
              ("Failed to parse file size (bad number -- got \"" ++ s ++ "\")") := by
  obtain ⟨ht, hd⟩ := takeWhile_dropWhile_split (fun c => !isAsciiAlpha c) num suf
    (fun c hc => by simp [hnum c hc])
    (fun c hc => by simp [hsuf c hc])
  simp only [parse_file_size_spec]
  rw [hsplit, ht, hd, multiplierOf_eq_spec]

/-- **C6.**  The size-spec parser is case-insensitive in its outcome, and
returns the numeric magnitude times the suffix multiplier — 1 for no
suffix, powers of 1000 for k/m/g/t, powers of 1024 for ki/mi/gi/ti, each
optionally with a trailing `b` (as captured by `specMultiplier`) — and a
descriptive error embedding the offending input exactly when the suffix is
unrecognized or the magnitude is not a valid `u64` numeral. -/
theorem parse_file_size_spec_correct (s : String) (num suf : List Char)
    (hsplit : s.data.map toLowerAscii = num ++ suf)
    (hnum : ∀ c ∈ num, isAsciiAlpha c = false)
    (hsuf : ∀ c, suf.head? = some c → isAsciiAlpha c = true) :
    ((parse_file_size_spec s).toOption = (parse_file_size_spec (lowerStr s)).toOption) ∧
      (∀ mult n, specMultiplier suf = some mult → parseU64 num = some n →
        parse_file_size_spec s = Except.ok ((n * mult) % 2 ^ 64)) ∧
      (specMultiplier suf = none → ∃ pre post,
        parse_file_size_spec s = Except.error (String.mk (pre ++ s.data ++ post))) ∧
      (∀ mult, specMultiplier suf = some mult → parseU64 num = none → ∃ pre post,
        parse_file_size_spec s = Except.error (String.mk (pre ++ s.data ++ post))) := by
  have hmain := parse_file_size_spec_eq s num suf hsplit hnum hsuf
  have hsplit2 : (lowerStr s).data.map toLowerAscii = num ++ suf := by
    show (s.data.map toLowerAscii).map toLowerAscii = num ++ suf
    rw [List.map_map, show toLowerAscii ∘ toLowerAscii = toLowerAscii from
      funext toLowerAscii_idem]
    exact hsplit
  have hmain2 := parse_file_size_spec_eq (lowerStr s) num suf hsplit2 hnum hsuf
  refine ⟨?_, ?_, ?_, ?_⟩
  · rw [hmain, hmain2]
    rcases specMultiplier suf with _ | mult
    · rfl
    · rcases parseU64 num with _ | n <;> rfl
  · intro mult n hm hn
    rw [hmain, hm, hn]
  · intro hm
    rw [hmain, hm]
    refine ⟨("Failed to parse file size (bad multiplier -- got \"").data,
      ("\")").data, ?_⟩
    rfl
  · intro mult hm hn
    rw [hmain, hm, hn]
    refine ⟨("Failed to parse file size (bad number -- got \"").data,
      ("\")").data, ?_⟩
    rfl

/-- Witness for C6: `"10Ki"` (mixed case, IEC suffix) parses to
`10 * 1024` bytes. -/
theorem parse_file_size_spec_correct_witness :
    parse_file_size_spec "10Ki" = Except.ok ((10 * 1024) % 2 ^ 64) :=
  (parse_file_size_spec_correct "10Ki" ['1', '0'] ['k', 'i']
    (by decide)
    (by intro c hc; fin_cases hc <;> decide)
    (by intro c hc; simp at hc; subst hc; decide)).2.1 1024 10
    (by decide) (by decide)

/-- **C10.**  With a recognized suffix and a magnitude that parses as a
`u64`, the parser multiplies without an overflow check: when the
mathematical product reaches `2 ^ 64` it still returns `Except.ok`, with
the product reduced modulo `2 ^ 64` (release-mode wrap-around). -/
theorem parse_file_size_spec_overflow (s : String) (num suf : List Char)
    (hsplit : s.data.map toLowerAscii = num ++ suf)
    (hnum : ∀ c ∈ num, isAsciiAlpha c = false)
    (hsuf : ∀ c, suf.head? = some c → isAsciiAlpha c = true)
    (mult n : Nat) (hm : specMultiplier suf = some mult)
    (hn : parseU64 num = some n) (hov : 2 ^ 64 ≤ n * mult) :
    parse_file_size_spec s = Except.ok ((n * mult) % 2 ^ 64) ∧
      ∀ e, parse_file_size_spec s ≠ Except.error e := by
  have hmain := parse_file_size_spec_eq s num suf hsplit hnum hsuf
  rw [hmain, hm, hn]
  exact ⟨rfl, fun e hcon => Except.noConfusion hcon⟩

/-- Witness for C10: `"18446744073709551615k"` (`u64::MAX` with SI suffix
`k`) parses without error to the product reduced modulo `2 ^ 64`. -/
theorem parse_file_size_spec_overflow_witness :
    parse_file_size_spec "18446744073709551615k" =
        Except.ok ((18446744073709551615 * 1000) % 2 ^ 64) ∧
      ∀ e, parse_file_size_spec "18446744073709551615k" ≠ Except.error e :=
  parse_file_size_spec_overflow "18446744073709551615k"
    ['1', '8', '4', '4', '6', '7', '4', '4', '0', '7', '3', '7', '0', '9',
      '5', '5', '1', '6', '1', '5'] ['k']
    (by decide)
    (by intro c hc; fin_cases hc <;> decide)
    (by intro c hc; simp at hc; subst hc; decide)
    1000 18446744073709551615 (by decide) (by decide) (by decide)
